import Mathlib

/-!
Shallow embedding of the Merkle-tree core of the repository (src/main.ts):
leaf hashing (hashList), tree construction (computeMerkleTree), proof
generation (generateMerkleProofWithOrder, generateProofForEveryUser) and
proof verification (verifyMerkleProofWithOrder).

Hashing is modelled by an arbitrary function H : String → String standing
for the configurable digest (crypto.subtle.digest + toHashString); every
operation takes H as a parameter, mirroring the configurable algorithm
argument.  JavaScript runtime values that can appear in a ClientList are
modelled by the inductive type JSVal; JSON.stringify is modelled by the
total function serialize (circular values, which make JSON.stringify
throw, are not representable in an inductive type, so SerializationError
does not arise in the model).  Thrown errors are modelled with Except.
-/

namespace Merkle

/-- A JavaScript value as it can appear in a ClientList: a string, a
number (modelled as Int, since no claim depends on float semantics), an
array, or an object given as an ordered list of key/value fields. -/
inductive JSVal where
  | str : String → JSVal
  | num : Int → JSVal
  | arr : List JSVal → JSVal
  | obj : List (String × JSVal) → JSVal

mutual

/-- Model of JSON.stringify on JSVal (deterministic canonical encoding;
the exact format only matters up to being a function of the value). -/
def serialize : JSVal → String
  | .str s => "\"" ++ s ++ "\""
  | .num n => toString n
  | .arr xs => "[" ++ serializeItems xs ++ "]"
  | .obj kvs => "\x7b" ++ serializeFields kvs ++ "\x7d"

def serializeItems : List JSVal → String
  | [] => ""
  | [x] => serialize x
  | x :: y :: rest => serialize x ++ "," ++ serializeItems (y :: rest)

def serializeFields : List (String × JSVal) → String
  | [] => ""
  | [(k, v)] => "\"" ++ k ++ "\":" ++ serialize v
  | (k, v) :: kv :: rest =>
      "\"" ++ k ++ "\":" ++ serialize v ++ "," ++ serializeFields (kv :: rest)

end

/-- The runtime format check of hashList: the entry must be an object
(typeof item is the string ob-ject, not an array) with exactly one key. -/
def validClient : JSVal → Bool
  | .obj kvs => kvs.length == 1
  | _ => false

/-- Object.keys(client)[0]: first key of an object, empty-string default
standing for undefined (used only inside an error message). -/
def clientKey : JSVal → String
  | .obj kvs => (kvs.map Prod.fst).getD 0 ""
  | _ => ""

/-- The errors thrown by the core (src/main.ts throws Error values with
these distinct messages). -/
inductive MerkleError where
  | formatError
  | emptyInput
  | emptyHashes
  | proofNotFound : String → MerkleError
deriving DecidableEq

/-- hashList: validate every entry (the forEach runs over the whole list
before any digest and throws on the first violation), then hash the
serialization of each entry in input order. -/
def hashList (H : String → String) (inputList : List JSVal) :
    Except MerkleError (List String) :=
  if inputList.all validClient then
    .ok (inputList.map (fun item => H (serialize item)))
  else
    .error .formatError

/-- One pass of the inner for-loop of computeMerkleTree: hash adjacent
pairs; a last element without a right partner is paired with itself. -/
def pairUp (H : String → String) : List String → List String
  | [] => []
  | [a] => [H (a ++ a)]
  | a :: b :: rest => H (a ++ b) :: pairUp H (rest)

/-- One iteration of the while-loop of computeMerkleTree: pair up the
level, then duplicate the last entry when the new level has odd length
and the source level had more than 2 entries. -/
def step (H : String → String) (hashes : List String) : List String :=
  let nextLevel := pairUp H hashes
  if nextLevel.length % 2 ≠ 0 ∧ 2 < hashes.length then
    nextLevel ++ [nextLevel.getLastD ""]
  else
    nextLevel

theorem pairUp_length (H : String → String) :
    ∀ l : List String, (pairUp H l).length = (l.length + 1) / 2
  | [] => by simp [pairUp]
  | [a] => by simp [pairUp]
  | a :: b :: rest => by
      simp only [pairUp, List.length_cons, pairUp_length H rest]
      omega

theorem pairUp_ne_nil (H : String → String) (l : List String)
    (h : l ≠ []) : pairUp H l ≠ [] := by
  have hl := pairUp_length H l
  intro hc
  rw [hc] at hl
  cases l with
  | nil => exact h rfl
  | cons a r => simp at hl; omega

theorem step_length (H : String → String) (l : List String) :
    (step H l).length =
      (if ((l.length + 1) / 2) % 2 ≠ 0 ∧ 2 < l.length then
        (l.length + 1) / 2 + 1
      else
        (l.length + 1) / 2) := by
  have hp := pairUp_length H l
  simp only [step, hp]
  split
  · rw [List.length_append, hp]
    simp
  · exact hp

theorem step_length_lt (H : String → String) (l : List String)
    (h : 2 ≤ l.length) : (step H l).length < l.length := by
  rw [step_length]
  split
  · omega
  · omega

theorem step_ne_nil (H : String → String) (l : List String)
    (h : l ≠ []) : step H l ≠ [] := by
  have := step_length H l
  intro hc
  rw [hc] at this
  simp only [List.length_nil] at this
  have hll : l.length ≠ 0 := by
    intro h0; exact h (List.eq_nil_of_length_eq_zero h0)
  split at this <;> omega

/-- Fuel-driven form of the while-loop of computeMerkleTree; the fuel is
an upper bound on the number of iterations (the level length strictly
decreases at each step, so an initial fuel of hashes.length suffices). -/
def buildLevelsAux (H : String → String) : Nat → List String → List (List String)
  | 0, hashes => [hashes]
  | fuel + 1, hashes =>
      if 1 < hashes.length then
        hashes :: buildLevelsAux H fuel (step H hashes)
      else
        [hashes]

/-- The while-loop of computeMerkleTree: collect levels, starting with
the leaf hashes, until a level of length 1 is produced. -/
def buildLevels (H : String → String) (hashes : List String) :
    List (List String) :=
  buildLevelsAux H hashes.length hashes

theorem buildLevelsAux_fuel (H : String → String) :
    ∀ fuel fuel' hashes, hashes.length ≤ fuel → hashes.length ≤ fuel' →
      buildLevelsAux H fuel hashes = buildLevelsAux H fuel' hashes := by
  intro fuel
  induction fuel with
  | zero =>
      intro fuel' hashes h h'
      interval_cases hl : hashes.length
      · cases fuel' with
        | zero => rfl
        | succ f =>
            simp only [buildLevelsAux]
            rw [if_neg]
            omega
  | succ f ih =>
      intro fuel' hashes h h'
      by_cases hlen : 1 < hashes.length
      · cases fuel' with
        | zero => omega
        | succ f' =>
            simp only [buildLevelsAux, if_pos hlen]
            have hs := step_length_lt H hashes (by omega)
            exact congrArg _ (ih f' (step H hashes) (by omega) (by omega))
      · cases fuel' with
        | zero =>
            simp only [buildLevelsAux, if_neg hlen]
        | succ f' =>
            simp only [buildLevelsAux, if_neg hlen]

theorem buildLevels_eq_cons (H : String → String) (hashes : List String)
    (h : 1 < hashes.length) :
    buildLevels H hashes = hashes :: buildLevels H (step H hashes) := by
  unfold buildLevels
  cases hl : hashes.length with
  | zero => omega
  | succ n =>
      simp only [buildLevelsAux]
      rw [if_pos (by omega)]
      have hs := step_length_lt H hashes (by omega)
      exact congrArg _
        (buildLevelsAux_fuel H n (step H hashes).length (step H hashes)
          (by omega) (by omega))

theorem buildLevels_eq_single (H : String → String) (hashes : List String)
    (h : hashes.length ≤ 1) : buildLevels H hashes = [hashes] := by
  unfold buildLevels
  cases hl : hashes.length with
  | zero =>
      simp only [buildLevelsAux]
  | succ n =>
      have : n = 0 := by omega
      subst this
      simp only [buildLevelsAux]
      rw [if_neg (by omega)]

/-- computeMerkleTree: reject the empty list, hash the leaves, then fold
levels up to the root.  The emptyHashes branch mirrors the dead check
on the hash list in the source. -/
def computeMerkleTree (H : String → String) (inputList : List JSVal) :
    Except MerkleError (List (List String)) :=
  if inputList.length = 0 then
    .error .emptyInput
  else
    match hashList H inputList with
    | .error e => .error e
    | .ok hashes =>
        if hashes.length = 0 then
          .error .emptyHashes
        else
          .ok (buildLevels H hashes)

deriving instance DecidableEq for Except

/-- A sibling path entry: the sibling hash and whether it lies to the
right of the node being proven. -/
structure Path where
  hash : String
  isRight : Bool
deriving DecidableEq

/-- Array.prototype.indexOf on an array of strings: index of the first
occurrence, none standing for -1. -/
def indexOf (a : String) : List String → Option Nat
  | [] => none
  | x :: xs => if x = a then some 0 else (indexOf a xs).map (· + 1)

/-- The proof-collecting for-loop of generateMerkleProofWithOrder, run
over all levels but the last (merkleTree.dropLast).  The source also
checks 0 ≤ siblingIndex, which is automatic here: when the index is odd
it is at least 1, so the Nat subtraction index - 1 is exact. -/
def collectProof (index : Nat) : List (List String) → List Path
  | [] => []
  | lvl :: rest =>
      let isIndexEven := index % 2 == 0
      let siblingIndex := if isIndexEven then index + 1 else index - 1
      (if siblingIndex < lvl.length then
        [⟨lvl.getD siblingIndex "", isIndexEven⟩]
      else
        []) ++ collectProof (index / 2) rest

/-- generateMerkleProofWithOrder: locate the leaf hash in level 0 (none
when absent), then climb the tree collecting sibling entries. -/
def generateMerkleProofWithOrder (leafHash : String)
    (merkleTree : List (List String)) : Option (List Path) :=
  match indexOf leafHash (merkleTree.headD []) with
  | none => none
  | some leafIndex => some (collectProof leafIndex merkleTree.dropLast)

/-- One entry of the ClientPath output: the client identifier mapped to
its proof. -/
structure ClientPath where
  clientId : String
  proof : List Path
deriving DecidableEq

/-- The per-client lookup of generateProofForEveryUser: it passes
merkleTree[0][i] to generateMerkleProofWithOrder; when i is out of
bounds that argument is undefined, which indexOf never finds, so the
lookup is a miss. -/
def leafLookup (merkleTree : List (List String)) (i : Nat) :
    Option (List Path) :=
  match (merkleTree.headD [])[i]? with
  | none => none
  | some h => generateMerkleProofWithOrder h merkleTree

/-- The for-loop of generateProofForEveryUser with its running index i:
the first miss aborts the whole batch with ProofNotFound carrying the
offending client identifier. -/
def genAllAux (merkleTree : List (List String)) :
    Nat → List JSVal → Except MerkleError (List ClientPath)
  | _, [] => .ok []
  | i, client :: rest =>
      match leafLookup merkleTree i with
      | none => .error (.proofNotFound (clientKey client))
      | some proof =>
          match genAllAux merkleTree (i + 1) rest with
          | .error e => .error e
          | .ok paths => .ok (⟨clientKey client, proof⟩ :: paths)

/-- generateProofForEveryUser: one ClientPath per client, in input
order, correlating clients with level 0 by position. -/
def generateProofForEveryUser (inputList : List JSVal)
    (merkleTree : List (List String)) : Except MerkleError (List ClientPath) :=
  genAllAux merkleTree 0 inputList

/-- The folding loop of verifyMerkleProofWithOrder: for each entry,
concatenate computedHash and the sibling in the recorded order, hash,
and continue with the result. -/
def foldProof (H : String → String) (computedHash : String) :
    List Path → String
  | [] => computedHash
  | entry :: rest =>
      foldProof H
        (if entry.isRight then
          H (computedHash ++ entry.hash)
        else
          H (entry.hash ++ computedHash))
        rest

/-- verifyMerkleProofWithOrder: recompute the leaf hash from the raw
client data, fold the proof, and compare the result with the claimed
root by exact string equality. -/
def verifyMerkleProofWithOrder (H : String → String) (leafRawData : JSVal)
    (merkleRoot : String) (proof : List Path) : Bool :=
  foldProof H (H (serialize leafRawData)) proof == merkleRoot

/-- tree[tree.length - 1][0], the root as read off by the caller. -/
def rootOf (merkleTree : List (List String)) : String :=
  (merkleTree.getLastD []).getD 0 ""

/-- Spec-side restatement of the level construction rule, written from
the words of the spec: entry i of the next level is the hash of
level[2i] concatenated with level[2i+1] when that exists, else with
level[2i] itself; afterwards, exactly when the resulting length is odd
and the source level had more than 2 entries, the last entry is
duplicated once.  Used to compare against the code-derived step. -/
def specLevelUp (H : String → String) (lvl : List String) : List String :=
  let paired := (List.range ((lvl.length + 1) / 2)).map (fun i =>
    H (lvl.getD (2 * i) "" ++
      (if 2 * i + 1 < lvl.length then lvl.getD (2 * i + 1) "" else
        lvl.getD (2 * i) "")))
  if paired.length % 2 = 1 ∧ 2 < lvl.length then
    paired ++ [paired.getLastD ""]
  else
    paired

/-- Spec-side restatement of the verifier fold as a left fold, written
from the words of the spec.  Used to compare against foldProof. -/
def foldProofSpec (H : String → String) (leafHash : String)
    (proof : List Path) : String :=
  proof.foldl
    (fun computed entry =>
      H (if entry.isRight then computed ++ entry.hash
        else entry.hash ++ computed))
    leafHash

/-- A concrete injective stand-in digest used for witnesses and
counterexamples. -/
def mockHash (s : String) : String := "#" ++ s ++ ";"

/-- Concrete single-key client entries for witnesses/counterexamples. -/
def cA : JSVal := .obj [("a", .num 1)]

def cB : JSVal := .obj [("b", .num 1)]

def cC : JSVal := .obj [("c", .num 1)]

theorem buildLevels_head (H : String → String) (hs : List String) :
    ∃ rest, buildLevels H hs = hs :: rest := by
  by_cases h : 1 < hs.length
  · exact ⟨_, buildLevels_eq_cons H hs h⟩
  · exact ⟨[], buildLevels_eq_single H hs (by omega)⟩

theorem computeMerkleTree_ok (H : String → String) (l : List JSVal)
    (t : List (List String)) (hok : computeMerkleTree H l = .ok t) :
    l ≠ [] ∧ (∀ c ∈ l, validClient c = true) ∧
    t = buildLevels H (l.map (fun c => H (serialize c))) := by
  unfold computeMerkleTree at hok
  by_cases h0 : l.length = 0
  · rw [if_pos h0] at hok
    simp at hok
  · rw [if_neg h0] at hok
    unfold hashList at hok
    by_cases hall : l.all validClient
    · rw [if_pos hall] at hok
      simp only at hok
      rw [if_neg (by simp only [List.length_map]; exact h0)] at hok
      refine ⟨by intro hc; subst hc; simp at h0, List.all_eq_true.mp hall, ?_⟩
      exact (Except.ok.inj hok).symm
    · rw [if_neg hall] at hok
      simp at hok

theorem indexOf_spec (a : String) :
    ∀ l : List String, ∀ i, indexOf a l = some i →
      l[i]? = some a ∧ ∀ k, k < i → l[k]? ≠ some a
  | [], i => by intro h; simp [indexOf] at h
  | x :: xs, i => by
      intro h
      by_cases hx : x = a
      · rw [indexOf, if_pos hx] at h
        obtain rfl : (0 : Nat) = i := Option.some.inj h
        subst hx
        exact ⟨by simp, by omega⟩
      · rw [indexOf, if_neg hx] at h
        obtain ⟨j, hj, rfl⟩ := Option.map_eq_some'.mp h
        obtain ⟨hget, hfirst⟩ := indexOf_spec a xs j hj
        refine ⟨by simpa using hget, ?_⟩
        intro k hk
        cases k with
        | zero => simpa using hx
        | succ k => simpa using hfirst k (by omega)

theorem indexOf_isSome_of_mem (a : String) :
    ∀ l : List String, a ∈ l → (indexOf a l).isSome = true
  | [], h => by simp at h
  | x :: xs, h => by
      by_cases hx : x = a
      · rw [indexOf, if_pos hx]; rfl
      · rw [indexOf, if_neg hx]
        have hmem : a ∈ xs := by
          cases h with
          | head => exact absurd rfl hx
          | tail _ h => exact h
        have := indexOf_isSome_of_mem a xs hmem
        cases hi : indexOf a xs with
        | none => rw [hi] at this; simp at this
        | some j => simp

theorem indexOf_eq_none_of_not_mem (a : String) :
    ∀ l : List String, a ∉ l → indexOf a l = none
  | [], _ => rfl
  | x :: xs, h => by
      rw [indexOf, if_neg (by intro hc; exact h (hc ▸ List.mem_cons_self x xs))]
      rw [indexOf_eq_none_of_not_mem a xs (by intro hc; exact h (List.mem_cons_of_mem x hc))]
      rfl

theorem buildLevels_last (H : String → String) :
    ∀ n (hs : List String), hs.length ≤ n → hs ≠ [] →
      ∃ lvl, (buildLevels H hs).getLast? = some lvl ∧ lvl.length = 1 := by
  intro n
  induction n with
  | zero =>
      intro hs h hne
      cases hs with
      | nil => exact absurd rfl hne
      | cons a r => simp at h
  | succ n ih =>
      intro hs h hne
      by_cases h1 : 1 < hs.length
      · obtain ⟨rest, hr⟩ := buildLevels_head H (step H hs)
        have hlt := step_length_lt H hs (by omega)
        obtain ⟨lvl, hlast, hlen⟩ :=
          ih (step H hs) (by omega) (step_ne_nil H hs hne)
        refine ⟨lvl, ?_, hlen⟩
        rw [buildLevels_eq_cons H hs h1, hr] at *
        rw [List.getLast?_cons_cons]
        exact hlast
      · have hl1 : hs.length = 1 := by
          have := List.length_pos.mpr hne
          omega
        rw [buildLevels_eq_single H hs (by omega)]
        exact ⟨hs, rfl, hl1⟩

theorem buildLevels_chain (H : String → String) :
    ∀ n (hs : List String), hs.length ≤ n →
      ∀ i, i + 1 < (buildLevels H hs).length →
        2 ≤ ((buildLevels H hs).getD i []).length ∧
        (buildLevels H hs).getD (i + 1) [] =
          step H ((buildLevels H hs).getD i []) := by
  intro n
  induction n with
  | zero =>
      intro hs h i hi
      have hz : hs.length = 0 := by omega
      rw [buildLevels_eq_single H hs (by omega)] at hi
      simp at hi
  | succ n ih =>
      intro hs h i hi
      by_cases h1 : 1 < hs.length
      · have hlt := step_length_lt H hs (by omega)
        rw [buildLevels_eq_cons H hs h1] at hi ⊢
        cases i with
        | zero =>
            refine ⟨by simpa using h1, ?_⟩
            obtain ⟨rest, hr⟩ := buildLevels_head H (step H hs)
            rw [hr]
            simp
        | succ i =>
            have hlen : i + 1 < (buildLevels H (step H hs)).length := by
              simpa using hi
            have := ih (step H hs) (by omega) i hlen
            simpa using this
      · rw [buildLevels_eq_single H hs (by omega)] at hi
        simp at hi

theorem clog2_succ_of_odd (m : Nat) (hm : 3 ≤ m) (hodd : m % 2 = 1) :
    Nat.clog 2 (m + 1) = Nat.clog 2 m := by
  refine le_antisymm ?_ (Nat.clog_mono_right 2 (Nat.le_succ m))
  rw [← Nat.le_pow_iff_clog_le (by norm_num)]
  have hle := Nat.le_pow_clog (b := 2) (by norm_num) m
  have hk1 : 1 ≤ Nat.clog 2 m := by
    by_contra hk
    push_neg at hk
    have h0 : Nat.clog 2 m ≤ 0 := by omega
    have := (Nat.le_pow_iff_clog_le (b := 2) (by norm_num)
      (x := m) (y := 0)).mpr h0
    simp at this
    omega
  have hne : m ≠ 2 ^ Nat.clog 2 m := by
    intro he
    have heven : 2 ^ Nat.clog 2 m % 2 = 0 := by
      have hs : Nat.clog 2 m = (Nat.clog 2 m - 1) + 1 := by omega
      rw [hs, pow_succ]
      omega
    omega
  omega

theorem clog2_step (n : Nat) (h : 2 ≤ n) :
    Nat.clog 2 n =
      Nat.clog 2
        (if ((n + 1) / 2) % 2 ≠ 0 ∧ 2 < n then (n + 1) / 2 + 1
        else (n + 1) / 2) + 1 := by
  have base := Nat.clog_of_two_le (b := 2) (n := n) (by norm_num) h
  have harg : (n + 2 - 1) / 2 = (n + 1) / 2 := by omega
  rw [harg] at base
  split
  · case isTrue hc =>
      have hm3 : 3 ≤ (n + 1) / 2 := by omega
      have hodd : (n + 1) / 2 % 2 = 1 := by omega
      rw [clog2_succ_of_odd ((n + 1) / 2) hm3 hodd]
      exact base
  · exact base

theorem buildLevels_length (H : String → String) :
    ∀ n (hs : List String), hs.length ≤ n → hs ≠ [] →
      (buildLevels H hs).length = Nat.clog 2 hs.length + 1 := by
  intro n
  induction n with
  | zero =>
      intro hs h hne
      cases hs with
      | nil => exact absurd rfl hne
      | cons a r => simp at h
  | succ n ih =>
      intro hs h hne
      by_cases h1 : 1 < hs.length
      · rw [buildLevels_eq_cons H hs h1, List.length_cons]
        have hlt := step_length_lt H hs (by omega)
        have hrec := ih (step H hs) (by omega) (step_ne_nil H hs hne)
        rw [hrec, step_length]
        have hcl := clog2_step hs.length (by omega)
        by_cases hc : ((hs.length + 1) / 2) % 2 ≠ 0 ∧ 2 < hs.length
        · rw [if_pos hc] at hcl ⊢
          omega
        · rw [if_neg hc] at hcl ⊢
          omega
      · have hl1 : hs.length = 1 := by
          have := List.length_pos.mpr hne
          omega
        rw [buildLevels_eq_single H hs (by omega), hl1]
        simp

theorem clog2_five : Nat.clog 2 5 = 3 := by
  have h5 := Nat.clog_of_two_le (b := 2) (n := 5) (by norm_num) (by norm_num)
  have h3 := Nat.clog_of_two_le (b := 2) (n := 3) (by norm_num) (by norm_num)
  have h2 := Nat.clog_of_two_le (b := 2) (n := 2) (by norm_num) (by norm_num)
  norm_num at h5 h3 h2
  omega

theorem pairUp_eq_spec (H : String → String) :
    ∀ l : List String,
      pairUp H l =
        (List.range ((l.length + 1) / 2)).map (fun i =>
          H (l.getD (2 * i) "" ++
            (if 2 * i + 1 < l.length then l.getD (2 * i + 1) "" else
              l.getD (2 * i) "")))
  | [] => by simp [pairUp]
  | [a] => by simp [pairUp, List.range_succ]
  | a :: b :: rest => by
      have ih := pairUp_eq_spec H rest
      simp only [pairUp, List.length_cons]
      have hlen : (rest.length + 1 + 1 + 1) / 2 = (rest.length + 1) / 2 + 1 := by
        omega
      rw [hlen, List.range_succ_eq_map, List.map_cons, List.map_map]
      congr 1
      · simp
      · rw [ih]
        apply List.map_congr_left
        intro i _
        simp only [Function.comp_apply]
        have h0 : 2 * Nat.succ i = 2 * i + 1 + 1 := by omega
        rw [h0]
        simp only [List.getD_cons_succ]
        congr 1
        have hiff : 2 * i + 1 + 1 + 1 < rest.length + 1 + 1 ↔
            2 * i + 1 < rest.length := by omega
        by_cases hcase : 2 * i + 1 < rest.length
        · rw [if_pos (hiff.mpr hcase), if_pos hcase]
        · rw [if_neg (fun hc => hcase (hiff.mp hc)), if_neg hcase]

theorem step_eq_spec (H : String → String) (l : List String) :
    step H l = specLevelUp H l := by
  unfold step specLevelUp
  rw [pairUp_eq_spec H l]
  have hiff :
      ((List.range ((l.length + 1) / 2)).map (fun i =>
          H (l.getD (2 * i) "" ++
            (if 2 * i + 1 < l.length then l.getD (2 * i + 1) "" else
              l.getD (2 * i) "")))).length % 2 ≠ 0 ∧ 2 < l.length ↔
      ((List.range ((l.length + 1) / 2)).map (fun i =>
          H (l.getD (2 * i) "" ++
            (if 2 * i + 1 < l.length then l.getD (2 * i + 1) "" else
              l.getD (2 * i) "")))).length % 2 = 1 ∧ 2 < l.length := by
    constructor <;> exact fun h => ⟨by omega, h.2⟩
  rw [if_congr hiff rfl rfl]

theorem genAllAux_abort (tree : List (List String)) :
    ∀ (l : List JSVal) (start : Nat),
      (∃ i, i < l.length ∧ leafLookup tree (start + i) = none) →
      ∃ i, i < l.length ∧ leafLookup tree (start + i) = none ∧
        genAllAux tree start l =
          .error (.proofNotFound (clientKey (l.getD i (.obj [])))) := by
  intro l
  induction l with
  | nil =>
      intro start h
      obtain ⟨i, hi, -⟩ := h
      simp at hi
  | cons c rest ih =>
      intro start h
      by_cases hc : leafLookup tree start = none
      · refine ⟨0, by simp, by simpa using hc, ?_⟩
        simp only [genAllAux, hc, List.getD_cons_zero]
      · obtain ⟨i, hi, hmiss⟩ := h
        obtain ⟨p, hp⟩ := Option.ne_none_iff_exists'.mp hc
        have hipos : i ≠ 0 := by
          intro h0
          subst h0
          rw [Nat.add_zero] at hmiss
          exact hc hmiss
        obtain ⟨j, rfl⟩ : ∃ j, i = j + 1 := ⟨i - 1, by omega⟩
        obtain ⟨k, hk, hkmiss, hres⟩ :=
          ih (start + 1)
            ⟨j, by simpa using hi, by
              have : start + 1 + j = start + (j + 1) := by omega
              rw [this]
              exact hmiss⟩
        refine ⟨k + 1, by simpa using hk, ?_, ?_⟩
        · have : start + (k + 1) = start + 1 + k := by omega
          rw [this]
          exact hkmiss
        · simp only [genAllAux, hp, hres, List.getD_cons_succ]

theorem genAllAux_ok (tree : List (List String)) :
    ∀ (l : List JSVal) (start : Nat) (paths : List ClientPath),
      genAllAux tree start l = .ok paths →
      paths.length = l.length ∧
      ∀ j, j < l.length →
        leafLookup tree (start + j) =
          some ((paths.getD j ⟨"", []⟩).proof) ∧
        (paths.getD j ⟨"", []⟩).clientId = clientKey (l.getD j (.obj [])) := by
  intro l
  induction l with
  | nil =>
      intro start paths h
      obtain rfl : ([] : List ClientPath) = paths := by
        simpa [genAllAux] using h
      exact ⟨rfl, by intro j hj; simp at hj⟩
  | cons c rest ih =>
      intro start paths h
      simp only [genAllAux] at h
      cases hl : leafLookup tree start with
      | none => rw [hl] at h; simp at h
      | some p =>
          rw [hl] at h
          cases hrec : genAllAux tree (start + 1) rest with
          | error e => rw [hrec] at h; simp at h
          | ok ps =>
              rw [hrec] at h
              obtain rfl : ClientPath.mk (clientKey c) p :: ps = paths := by
                simpa using h
              obtain ⟨hlen, hall⟩ := ih (start + 1) ps hrec
              refine ⟨by simpa using hlen, ?_⟩
              intro j hj
              cases j with
              | zero =>
                  refine ⟨by simpa [Nat.add_zero] using hl, by simp⟩
              | succ j =>
                  have := hall j (by simpa using hj)
                  have harith : start + (j + 1) = start + 1 + j := by omega
                  rw [harith]
                  simpa using this

theorem foldProof_eq_foldl (H : String → String) :
    ∀ (p : List Path) (h : String), foldProof H h p = foldProofSpec H h p
  | [], h => rfl
  | e :: rest, h => by
      rw [foldProof, foldProofSpec, List.foldl_cons,
        foldProof_eq_foldl H rest, apply_ite H]
      rfl

/-- Two-client tree used to instantiate the level-rule theorem. -/
def twoTree : List (List String) :=
  [[mockHash (serialize cA), mockHash (serialize cB)],
   [mockHash (mockHash (serialize cA) ++ mockHash (serialize cB))]]

/-- One-client tree used to instantiate the batch-abort theorem. -/
def oneTree : List (List String) := [[mockHash (serialize cA)]]

/-- Tree over two identical leaves used to instantiate the
first-occurrence theorem. -/
def dupTree : List (List String) :=
  [[mockHash (serialize cA), mockHash (serialize cA)],
   [mockHash (mockHash (serialize cA) ++ mockHash (serialize cA))]]

/-- C1: the round-trip property fails on the code.  For the 3-client
list the tree self-pairs the last leaf (parent = H(c ++ c)), but the
proof generator appends no entry for that level (sibling index out of
bounds), so the verifier starts its fold from c instead of H(c ++ c)
and the recomputed root differs from the tree root: the composition
tree-build, proof-generate, verify returns ok (some false) where the
claim requires true. -/
theorem roundTrip_fails_for_last_leaf_of_odd_list :
    (computeMerkleTree mockHash [cA, cB, cC]).map (fun t =>
        (generateMerkleProofWithOrder (mockHash (serialize cC)) t).map
          (fun p => verifyMerkleProofWithOrder mockHash cC (rootOf t) p))
      = Except.ok (some false) := by decide

/-- C2: in every tree returned by computeMerkleTree, every level other
than the last has length at least 2 and the following level is exactly
the spec's construction rule applied to it: hash pairs at indices
2i, 2i+1 (last paired with itself when odd), then duplicate the last
entry exactly when the new length is odd and the source level was
longer than 2 — no other padding. -/
theorem tree_levels_follow_construction_rule (H : String → String)
    (l : List JSVal) (t : List (List String))
    (hok : computeMerkleTree H l = .ok t) :
    ∀ i, i + 1 < t.length →
      2 ≤ (t.getD i []).length ∧
      t.getD (i + 1) [] = specLevelUp H (t.getD i []) := by
  obtain ⟨-, -, rfl⟩ := computeMerkleTree_ok H l t hok
  intro i hi
  obtain ⟨h2, hstep⟩ := buildLevels_chain H _ _ le_rfl i hi
  exact ⟨h2, by rw [hstep, step_eq_spec]⟩

/-- Witness for C2 at the concrete two-client tree. -/
theorem tree_levels_rule_witness :
    2 ≤ (twoTree.getD 0 []).length ∧
    twoTree.getD 1 [] = specLevelUp mockHash (twoTree.getD 0 []) :=
  tree_levels_follow_construction_rule mockHash [cA, cB] twoTree
    (by decide) 0 (by decide)

/-- C3: the tree depth is ceil(log2 N) + 1 (as Nat.clog 2 N + 1) for
every N-client list; in particular 5 clients give depth 4, and a
single-client tree has depth 1 with an empty proof for its leaf. -/
theorem tree_depth_clog (H : String → String) (l : List JSVal)
    (t : List (List String)) (hok : computeMerkleTree H l = .ok t) :
    t.length = Nat.clog 2 l.length + 1 ∧
    (l.length = 5 → t.length = 4) ∧
    (∀ c, l = [c] →
      t.length = 1 ∧
      generateMerkleProofWithOrder (H (serialize c)) t = some []) := by
  obtain ⟨hne, hval, rfl⟩ := computeMerkleTree_ok H l t hok
  have hmapne : l.map (fun c => H (serialize c)) ≠ [] := by
    intro hc
    apply hne
    simpa using hc
  have hlen := buildLevels_length H _ _ le_rfl hmapne
  rw [List.length_map] at hlen
  refine ⟨hlen, ?_, ?_⟩
  · intro h5
    rw [hlen, h5, clog2_five]
  · intro c hc
    subst hc
    simp only [List.map_cons, List.map_nil]
    rw [buildLevels_eq_single H _ (by simp)]
    refine ⟨rfl, ?_⟩
    unfold generateMerkleProofWithOrder
    simp [indexOf, collectProof]

/-- Witness for C3 at the concrete single-client tree. -/
theorem tree_depth_witness :
    ([[mockHash (serialize cA)]] : List (List String)).length =
      Nat.clog 2 ([cA] : List JSVal).length + 1 :=
  (tree_depth_clog mockHash [cA] [[mockHash (serialize cA)]] (by decide)).1

/-- C4: the verifier is exactly the in-order left fold of the proof
(computedHash ++ sibling when the side flag is right, sibling ++
computedHash otherwise, hashed at each step) compared with the claimed
root by string equality; it is a total Boolean function (mismatch never
throws in the model) and any root different from the folded result
yields false. -/
theorem verify_is_fold_then_compare (H : String → String) (d : JSVal)
    (root : String) (proof : List Path) :
    verifyMerkleProofWithOrder H d root proof =
      (foldProofSpec H (H (serialize d)) proof == root) ∧
    (root ≠ foldProofSpec H (H (serialize d)) proof →
      verifyMerkleProofWithOrder H d root proof = false) := by
  have he := foldProof_eq_foldl H proof (H (serialize d))
  constructor
  · unfold verifyMerkleProofWithOrder
    rw [he]
  · intro hne
    unfold verifyMerkleProofWithOrder
    rw [he]
    exact beq_eq_false_iff_ne.mpr (fun h => hne h.symm)

/-- Witness for C4: a wrong root makes the verifier return false. -/
theorem verify_false_on_wrong_root :
    verifyMerkleProofWithOrder mockHash cA "nope" [] = false :=
  (verify_is_fold_then_compare mockHash cA "nope" []).2 (by decide)

/-- C5: looking up a hash absent from level 0 returns none (no
exception), while the batch generator is all-or-nothing: if any
positional lookup misses, the whole call returns ProofNotFound carrying
the offending client's identifier, and no partial list is produced. -/
theorem lookup_miss_and_batch_all_or_nothing (l : List JSVal)
    (tree : List (List String)) :
    (∀ h1 : String, h1 ∉ tree.headD [] →
      generateMerkleProofWithOrder h1 tree = none) ∧
    ((∃ i, i < l.length ∧ leafLookup tree i = none) →
      ∃ i, i < l.length ∧ leafLookup tree i = none ∧
        generateProofForEveryUser l tree =
          .error (.proofNotFound (clientKey (l.getD i (.obj []))))) := by
  constructor
  · intro h1 hmem
    unfold generateMerkleProofWithOrder
    rw [indexOf_eq_none_of_not_mem h1 _ hmem]
  · intro hex
    obtain ⟨i, hi, hmiss⟩ := hex
    obtain ⟨k, hk, hkm, hres⟩ :=
      genAllAux_abort tree l 0 ⟨i, hi, by simpa using hmiss⟩
    refine ⟨k, hk, by simpa using hkm, ?_⟩
    unfold generateProofForEveryUser
    exact hres

/-- Witness for C5: a 2-client batch over a 1-leaf tree aborts with
ProofNotFound for the second client. -/
theorem batch_abort_witness :
    ∃ i, i < ([cA, cB] : List JSVal).length ∧ leafLookup oneTree i = none ∧
      generateProofForEveryUser [cA, cB] oneTree =
        .error (.proofNotFound
          (clientKey (([cA, cB] : List JSVal).getD i (.obj [])))) :=
  (lookup_miss_and_batch_all_or_nothing [cA, cB] oneTree).2
    ⟨1, by decide, by decide⟩

/-- C6: any list containing an entry that is not a single-key object
(an array, a non-object, or an object with zero or several keys) makes
hashList fail with the format error, with no partial output, wherever
the malformed entry sits. -/
theorem hashList_rejects_malformed (H : String → String) (l : List JSVal)
    (hbad : ∃ c ∈ l, validClient c = false) :
    hashList H l = .error .formatError := by
  have hcond : ¬(l.all validClient = true) := by
    intro hall
    obtain ⟨c, hc, hv⟩ := hbad
    have := List.all_eq_true.mp hall c hc
    rw [hv] at this
    exact Bool.false_ne_true this
  unfold hashList
  rw [if_neg hcond]

/-- Witness for C6 with the malformed entry in second position. -/
theorem hashList_rejects_malformed_witness :
    hashList mockHash [cA, .arr []] = .error .formatError :=
  hashList_rejects_malformed mockHash [cA, .arr []]
    ⟨.arr [], List.Mem.tail _ (List.Mem.head _), rfl⟩

/-- C7: the empty list makes computeMerkleTree fail with the
empty-input error and no tree; every non-empty well-formed list yields
a tree. -/
theorem tree_empty_fails_nonempty_succeeds (H : String → String)
    (l : List JSVal) :
    (l = [] → computeMerkleTree H l = .error .emptyInput) ∧
    (l ≠ [] → (∀ c ∈ l, validClient c = true) →
      ∃ t, computeMerkleTree H l = .ok t) := by
  constructor
  · intro h
    subst h
    rfl
  · intro hne hval
    refine ⟨buildLevels H (l.map (fun c => H (serialize c))), ?_⟩
    unfold computeMerkleTree hashList
    rw [if_neg (fun h => hne (List.length_eq_zero.mp h)),
      if_pos (List.all_eq_true.mpr hval)]
    dsimp only
    rw [if_neg (by
      simp only [List.length_map]
      exact fun h => hne (List.length_eq_zero.mp h))]

/-- Witness for C7 at the empty list and a one-client list. -/
theorem tree_empty_nonempty_witness :
    computeMerkleTree mockHash ([] : List JSVal) = .error .emptyInput ∧
    ∃ t, computeMerkleTree mockHash [cA] = .ok t :=
  ⟨(tree_empty_fails_nonempty_succeeds mockHash []).1 rfl,
   (tree_empty_fails_nonempty_succeeds mockHash [cA]).2 (by simp)
     (by decide)⟩

/-- C8: for well-formed input, hashList returns exactly one hash per
entry in input order (the map of the entry serializations through the
digest), of the same length as the input, and that sequence is level 0
of the tree computeMerkleTree returns. -/
theorem hashList_preserves_order_and_level0 (H : String → String)
    (l : List JSVal) (hval : ∀ c ∈ l, validClient c = true) :
    hashList H l = .ok (l.map (fun c => H (serialize c))) ∧
    (l.map (fun c => H (serialize c))).length = l.length ∧
    ∀ t, computeMerkleTree H l = .ok t →
      t.headD [] = l.map (fun c => H (serialize c)) := by
  refine ⟨?_, by simp, ?_⟩
  · unfold hashList
    rw [if_pos (List.all_eq_true.mpr hval)]
  · intro t hok
    obtain ⟨-, -, rfl⟩ := computeMerkleTree_ok H l t hok
    obtain ⟨rest, hr⟩ := buildLevels_head H _
    rw [hr]
    rfl

/-- Witness for C8 at a concrete two-client list. -/
theorem hashList_order_witness :
    hashList mockHash [cA, cB] =
      .ok (([cA, cB] : List JSVal).map (fun c => mockHash (serialize c))) :=
  (hashList_preserves_order_and_level0 mockHash [cA, cB] (by decide)).1

/-- C9: each constructed level (after the optional padding duplicate)
is strictly shorter than the level it was built from whenever that
level has at least 2 hashes, so the loop terminates: the last level of
the built tree has length 1. -/
theorem level_shrinks_and_loop_reaches_root (H : String → String)
    (l : List String) (h : 2 ≤ l.length) :
    (step H l).length < l.length ∧
    ∃ lvl, (buildLevels H l).getLast? = some lvl ∧ lvl.length = 1 := by
  refine ⟨step_length_lt H l h, ?_⟩
  exact buildLevels_last H l.length l le_rfl
    (by intro hc; subst hc; simp at h)

/-- Witness for C9 at a concrete two-hash level. -/
theorem level_shrinks_witness :
    (step mockHash ["x", "y"]).length < (["x", "y"] : List String).length ∧
    ∃ lvl, (buildLevels mockHash ["x", "y"]).getLast? = some lvl ∧
      lvl.length = 1 :=
  level_shrinks_and_loop_reaches_root mockHash ["x", "y"] (by decide)

/-- C10: proof lookup resolves a duplicated leaf hash to its first
(lowest-index) occurrence in level 0, and in the batch output every
client whose positional level-0 hash is the same duplicate receives
that same first-occurrence proof. -/
theorem duplicate_leaf_first_occurrence (tree : List (List String)) :
    (∀ h1 j, (tree.headD [])[j]? = some h1 →
      ∃ i, i ≤ j ∧ (tree.headD [])[i]? = some h1 ∧
        (∀ k, k < i → (tree.headD [])[k]? ≠ some h1) ∧
        generateMerkleProofWithOrder h1 tree =
          some (collectProof i tree.dropLast)) ∧
    (∀ (l : List JSVal) (paths : List ClientPath),
      generateProofForEveryUser l tree = .ok paths →
      ∀ j1 j2, j1 < l.length → j2 < l.length →
        (tree.headD [])[j1]? = (tree.headD [])[j2]? →
        (paths.getD j1 ⟨"", []⟩).proof = (paths.getD j2 ⟨"", []⟩).proof) := by
  constructor
  · intro h1 j hj
    have hmem : h1 ∈ tree.headD [] := List.getElem?_mem hj
    have hsome := indexOf_isSome_of_mem h1 _ hmem
    cases hidx : indexOf h1 (tree.headD []) with
    | none =>
        rw [hidx] at hsome
        simp at hsome
    | some i =>
        obtain ⟨hget, hfirst⟩ := indexOf_spec h1 _ i hidx
        refine ⟨i, ?_, hget, hfirst, ?_⟩
        · by_contra hlt
          push_neg at hlt
          exact hfirst j (by omega) hj
        · unfold generateMerkleProofWithOrder
          rw [hidx]
  · intro l paths hok j1 j2 hj1 hj2 heq
    have hok2 : genAllAux tree 0 l = .ok paths := hok
    obtain ⟨hlen, hall⟩ := genAllAux_ok tree l 0 paths hok2
    have h1 := (hall j1 hj1).1
    have h2 := (hall j2 hj2).1
    rw [Nat.zero_add] at h1 h2
    have hlk : leafLookup tree j1 = leafLookup tree j2 := by
      unfold leafLookup
      rw [heq]
    exact Option.some.inj (h1.symm.trans (hlk.trans h2))

/-- Witness for C10: the duplicated leaf at index 1 of the two-leaf
duplicate tree resolves to index 0. -/
theorem duplicate_leaf_witness :
    ∃ i, i ≤ 1 ∧ (dupTree.headD [])[i]? = some (mockHash (serialize cA)) ∧
      (∀ k, k < i →
        (dupTree.headD [])[k]? ≠ some (mockHash (serialize cA))) ∧
      generateMerkleProofWithOrder (mockHash (serialize cA)) dupTree =
        some (collectProof i dupTree.dropLast) :=
  (duplicate_leaf_first_occurrence dupTree).1 (mockHash (serialize cA)) 1
    (by decide)

end Merkle
